import Mathlib

/-!
Verification of the recipe request/response handler of Nutri-Coach-Pro
(`src/components/RecipeGenerator.tsx`).

The development shallowly embeds the pipeline of `generateRecipes`:
prompt construction, response sanitization (the global regex replace of
code-fence markers followed by `trim()`), strict JSON parsing
(`JSON.parse`), the diet-tag filter (with JavaScript dynamic dispatch
semantics for `r.tags.includes(...)`), and the surrounding component
state update (recipes list, `isGenerating` flag, toasts).
-/

/-- JSON values as produced by `JSON.parse`.  Numbers are kept exactly as
a decimal mantissa/exponent pair `m * 10 ^ e`; no claim inspects numeric
values, so IEEE rounding is immaterial.  Object fields keep source order;
duplicate keys are resolved at lookup time (last binding wins, as in
JavaScript). -/
inductive Json where
  | null
  | bool (b : Bool)
  | num (m : Int) (e : Int)
  | str (s : String)
  | arr (xs : List Json)
  | obj (fields : List (String × Json))
deriving Repr

/-- The opening fence marker `\x60\x60\x60json` (first alternative of the
regex `/\x60\x60\x60json|\x60\x60\x60/g` in `generateRecipes`). -/
def fenceJson : List Char := "```json".toList

/-- The bare fence marker (second alternative of the regex). -/
def fence : List Char := "```".toList

/-- Boolean test that `pat` is a leading segment of `s` (mirrors what the
regex engine checks at one position). -/
def startsWith : List Char → List Char → Bool
  | _, [] => true
  | [], _ :: _ => false
  | c :: t, p :: ps => c == p && startsWith t ps

/-- Boolean test that `sub` occurs contiguously somewhere in `s`
(JavaScript `String.prototype.includes`). -/
def strContains : List Char → List Char → Bool
  | [], sub => sub.isEmpty
  | c :: t, sub => startsWith (c :: t) sub || strContains t sub

/-- Fueled form of the global fence removal
`text.replace(/\x60\x60\x60json|\x60\x60\x60/g, "")`: at each position the
engine first tries the 7-character alternative, then the 3-character one,
and on failure emits the character and moves one position right.  Matched
text is deleted and scanning resumes after the match.  `fuel` bounds the
recursion; any `fuel ≥ cs.length` computes the true result. -/
def removeFencesF : Nat → List Char → List Char
  | 0, cs => cs
  | fuel + 1, cs =>
    if startsWith cs fenceJson then removeFencesF fuel (cs.drop 7)
    else if startsWith cs fence then removeFencesF fuel (cs.drop 3)
    else
      match cs with
      | [] => []
      | c :: rest => c :: removeFencesF fuel rest

/-- Global fence removal with adequate fuel. -/
def removeFences (cs : List Char) : List Char := removeFencesF cs.length cs

/-- Whitespace recognized by `String.prototype.trim` (the characters that
can matter here: space, tab, line feed, carriage return, vertical tab,
form feed). -/
def isJsWs (c : Char) : Bool :=
  c == ' ' || c == '\t' || c == '\n' || c == '\r' || c == Char.ofNat 11 || c == Char.ofNat 12

/-- JavaScript `trim()`: drop leading and trailing whitespace. -/
def jsTrim (cs : List Char) : List Char :=
  ((cs.dropWhile isJsWs).reverse.dropWhile isJsWs).reverse

/-- Step 1 of the response interpreter: `text.replace(/\x60\x60\x60json|\x60\x60\x60/g, "").trim()`. -/
def cleanText (s : String) : List Char := jsTrim (removeFences s.toList)

/-- JSON whitespace accepted by `JSON.parse` between tokens. -/
def isJsonWs (c : Char) : Bool :=
  c == ' ' || c == '\t' || c == '\n' || c == '\r'

/-- Skip inter-token JSON whitespace. -/
def skipWs (cs : List Char) : List Char := cs.dropWhile isJsonWs

/-- Value of one hexadecimal digit, if `c` is one. -/
def hexVal? (c : Char) : Option Nat :=
  if '0' ≤ c ∧ c ≤ '9' then some (c.toNat - 48)
  else if 'a' ≤ c ∧ c ≤ 'f' then some (c.toNat - 97 + 10)
  else if 'A' ≤ c ∧ c ≤ 'F' then some (c.toNat - 65 + 10)
  else none

/-- Translation of a single-character JSON string escape. -/
def escChar? (c : Char) : Option Char :=
  if c = '"' then some '"'
  else if c = '\\' then some '\\'
  else if c = '/' then some '/'
  else if c = 'b' then some (Char.ofNat 8)
  else if c = 'f' then some (Char.ofNat 12)
  else if c = 'n' then some '\n'
  else if c = 'r' then some '\r'
  else if c = 't' then some '\t'
  else none

/-- Body of a JSON string literal, after the opening quote: returns the
decoded characters and the remaining input after the closing quote.
Control characters below U+0020 and unknown escapes are rejected, as by
`JSON.parse`. -/
def parseStringBody : Nat → List Char → Option (List Char × List Char)
  | 0, _ => none
  | _ + 1, [] => none
  | fuel + 1, c :: t =>
    if c = '"' then some ([], t)
    else if c = '\\' then
      match t with
      | [] => none
      | e :: t2 =>
        if e = 'u' then
          match t2 with
          | a :: b :: c2 :: d :: t3 => do
            let ha ← hexVal? a
            let hb ← hexVal? b
            let hc ← hexVal? c2
            let hd ← hexVal? d
            let (s, r) ← parseStringBody fuel t3
            some (Char.ofNat (((ha * 16 + hb) * 16 + hc) * 16 + hd) :: s, r)
          | _ => none
        else do
          let ec ← escChar? e
          let (s, r) ← parseStringBody fuel t2
          some (ec :: s, r)
    else if c.toNat < 32 then none
    else do
      let (s, r) ← parseStringBody fuel t
      some (c :: s, r)

/-- Decimal digits to a natural number. -/
def digitsToNat (ds : List Char) : Nat :=
  ds.foldl (fun a c => a * 10 + (c.toNat - 48)) 0

/-- Integer part of a JSON number: `0` or a nonzero digit followed by
digits (leading zeros rejected, as by `JSON.parse`). -/
def parseIntPart : List Char → Option (List Char × List Char)
  | [] => none
  | c :: t =>
    if c = '0' then some ([c], t)
    else if c.isDigit then some (c :: t.takeWhile Char.isDigit, t.dropWhile Char.isDigit)
    else none

/-- Optional fraction part: absent, or a dot followed by at least one digit. -/
def parseFracPart : List Char → Option (List Char × List Char)
  | '.' :: t =>
    if (t.takeWhile Char.isDigit).isEmpty then none
    else some (t.takeWhile Char.isDigit, t.dropWhile Char.isDigit)
  | cs => some ([], cs)

/-- Exponent digits after an optional sign. -/
def parseExpDigits (sign : Bool) (t : List Char) : Option (Int × List Char) :=
  if (t.takeWhile Char.isDigit).isEmpty then none
  else
    let n : Int := digitsToNat (t.takeWhile Char.isDigit)
    some (if sign then -n else n, t.dropWhile Char.isDigit)

/-- Optional exponent part of a JSON number. -/
def parseExpPart : List Char → Option (Int × List Char)
  | [] => some (0, [])
  | c :: t =>
    if c = 'e' ∨ c = 'E' then
      match t with
      | '+' :: t2 => parseExpDigits false t2
      | '-' :: t2 => parseExpDigits true t2
      | t2 => parseExpDigits false t2
    else some (0, c :: t)

/-- A JSON number token starting at `cs` (strict grammar of `JSON.parse`). -/
def parseNumber (cs : List Char) : Option (Json × List Char) := do
  let (neg, cs1) := match cs with | '-' :: t => (true, t) | _ => (false, cs)
  let (ids, cs2) ← parseIntPart cs1
  let (fds, cs3) ← parseFracPart cs2
  let (ex, cs4) ← parseExpPart cs3
  let m : Nat := digitsToNat (ids ++ fds)
  some (Json.num (if neg then -(m : Int) else (m : Int)) (ex - (fds.length : Int)), cs4)

/-- Left brace character, written by code point to keep it out of string
literals. -/
def lbrace : Char := Char.ofNat 123

/-- Right brace character. -/
def rbrace : Char := Char.ofNat 125

/-- Literal `true`. -/
def trueLit : List Char := "true".toList

/-- Literal `false`. -/
def falseLit : List Char := "false".toList

/-- Literal `null`. -/
def nullLit : List Char := "null".toList

mutual

/-- One JSON value (`JSON.parse` grammar), returning the remaining input. -/
def parseValue : Nat → List Char → Option (Json × List Char)
  | 0, _ => none
  | fuel + 1, cs0 =>
    let cs := skipWs cs0
    match cs with
    | [] => none
    | c :: t =>
      if c = '"' then
        match parseStringBody (t.length + 1) t with
        | some (s, r) => some (Json.str (String.mk s), r)
        | none => none
      else if c = '[' then
        match skipWs t with
        | c2 :: t2 =>
          if c2 = ']' then some (Json.arr [], t2)
          else
            match parseElems fuel (c2 :: t2) with
            | some (xs, r) => some (Json.arr xs, r)
            | none => none
        | [] => none
      else if c = lbrace then
        match skipWs t with
        | c2 :: t2 =>
          if c2 = rbrace then some (Json.obj [], t2)
          else
            match parseMembers fuel (c2 :: t2) with
            | some (ms, r) => some (Json.obj ms, r)
            | none => none
        | [] => none
      else if startsWith cs trueLit then some (Json.bool true, cs.drop 4)
      else if startsWith cs falseLit then some (Json.bool false, cs.drop 5)
      else if startsWith cs nullLit then some (Json.null, cs.drop 4)
      else if c = '-' ∨ c.isDigit then parseNumber cs
      else none

/-- Comma-separated array elements up to and including the closing bracket. -/
def parseElems : Nat → List Char → Option (List Json × List Char)
  | 0, _ => none
  | fuel + 1, cs =>
    match parseValue fuel cs with
    | none => none
    | some (v, r) =>
      match skipWs r with
      | c :: t =>
        if c = ',' then
          match parseElems fuel t with
          | some (xs, r2) => some (v :: xs, r2)
          | none => none
        else if c = ']' then some ([v], t)
        else none
      | [] => none

/-- Comma-separated object members up to and including the closing brace. -/
def parseMembers : Nat → List Char → Option (List (String × Json) × List Char)
  | 0, _ => none
  | fuel + 1, cs =>
    match skipWs cs with
    | c :: t =>
      if c = '"' then
        match parseStringBody (t.length + 1) t with
        | some (k, r) =>
          match skipWs r with
          | c2 :: t2 =>
            if c2 = ':' then
              match parseValue fuel t2 with
              | some (v, r2) =>
                match skipWs r2 with
                | c3 :: t3 =>
                  if c3 = ',' then
                    match parseMembers fuel t3 with
                    | some (ms, r3) => some ((String.mk k, v) :: ms, r3)
                    | none => none
                  else if c3 = rbrace then some ([(String.mk k, v)], t3)
                  else none
                | [] => none
              | none => none
            else none
          | [] => none
        | none => none
      else none
    | [] => none

end

/-- Step 2 of the response interpreter: `JSON.parse` on a character list.
`none` models the thrown `SyntaxError`; the fuel `2 * length + 2` is
sufficient because every parser step that spends fuel also consumes input
or descends past a consumed opening token. -/
def JSONparseL (cs : List Char) : Option Json :=
  match parseValue (2 * cs.length + 2) cs with
  | some (v, r) => if (skipWs r).isEmpty then some v else none
  | none => none

/-- Runtime faults raised inside the `try` block after a successful parse
(JavaScript `TypeError`, e.g. calling `.includes` on `undefined`). -/
inductive JsError where
  | typeError
deriving Repr, DecidableEq

/-- Lookup of an object field by name; with duplicate keys the last
binding wins, as in the object produced by `JSON.parse`. -/
def lookupField : List (String × Json) → String → Option Json
  | [], _ => none
  | (k, v) :: rest, name =>
    match lookupField rest name with
    | some w => some w
    | none => if k = name then some v else none

/-- JavaScript property access `r.name` on a parsed JSON value: throws a
`TypeError` on `null`, yields the field (or `undefined`, modelled as
`none`) on an object, and `undefined` on every other primitive or array. -/
def jsGetField : Json → String → Except JsError (Option Json)
  | Json.null, _ => Except.error JsError.typeError
  | Json.obj fs, name => Except.ok (lookupField fs name)
  | _, _ => Except.ok none

/-- JavaScript `v.includes(tag)`: array membership test (`===` against the
string `tag`, so only string elements can match) when `v` is an array,
substring test when `v` is a string, and a `TypeError` otherwise (no
`includes` method exists on other values). -/
def jsIncludes : Json → String → Except JsError Bool
  | Json.arr xs, tag =>
    Except.ok (xs.any fun j => match j with | Json.str s => s == tag | _ => false)
  | Json.str s, tag => Except.ok (strContains s.toList tag.toList)
  | _, _ => Except.error JsError.typeError

/-- The filter predicate
`(r) => r.tags.includes("Vegetarian") || r.tags.includes("Vegan")`
with JavaScript short-circuit evaluation; accessing `.includes` on a
missing `tags` field throws. -/
def recipePred (r : Json) : Except JsError Bool := do
  match ← jsGetField r "tags" with
  | none => Except.error JsError.typeError
  | some tagsV =>
    if (← jsIncludes tagsV "Vegetarian") then pure true
    else jsIncludes tagsV "Vegan"

/-- JavaScript `Array.prototype.filter` with a fallible predicate: visits
elements in order, aborting at the first thrown error. -/
def jsFilter (p : Json → Except JsError Bool) : List Json → Except JsError (List Json)
  | [] => Except.ok []
  | x :: xs => do
    let b ← p x
    let rest ← jsFilter p xs
    pure (if b then x :: rest else rest)

/-- Step 3 of the pipeline: the diet filter of `generateRecipes`.  When
`profile.dietType` is `"vegetarian"` or `"vegan"`, `parsed.filter(...)` is
applied — which throws when `parsed` is not an array; otherwise the parsed
value is passed through untouched. -/
def filterRecipes (dietType : String) (parsed : Json) : Except JsError Json :=
  if dietType = "vegetarian" ∨ dietType = "vegan" then
    match parsed with
    | Json.arr xs => (jsFilter recipePred xs).map Json.arr
    | _ => Except.error JsError.typeError
  else Except.ok parsed

/-- Outcomes of the response interpreter distinguished by the code: the
`JSON.parse` failure handled by the inner `catch`, and a runtime fault
handled by the outer `catch`. -/
inductive InterpretError where
  | parseError
  | runtimeError
deriving Repr, DecidableEq

/-- The response interpreter: sanitize, parse, filter
(`interpret(rawText, dietType)` of the specification, assembled from the
statements of `generateRecipes`). -/
def interpret (rawText dietType : String) : Except InterpretError Json :=
  match JSONparseL (cleanText rawText) with
  | none => Except.error InterpretError.parseError
  | some parsed =>
    match filterRecipes dietType parsed with
    | Except.ok v => Except.ok v
    | Except.error _ => Except.error InterpretError.runtimeError

/-- Template text of the prompt before the interpolated ingredient list. -/
def promptPart1 : String :=
  "\n    Generate 3 recipes in valid JSON format based on these available ingredients:\n    "

/-- Template text of the prompt after the interpolated ingredient list. -/
def promptPart2 : String :=
  ".\n\n    Each recipe must follow this exact TypeScript interface:\n    [\n      \x7b\n        \"id\": \"string\",\n        \"name\": \"string\",\n        \"calories\": number,\n        \"protein\": number,\n        \"carbs\": number,\n        \"fats\": number,\n        \"servings\": number,\n        \"cookTime\": number,\n        \"difficulty\": \"Easy\" | \"Medium\" | \"Hard\",\n        \"ingredients\": [\"string\"],\n        \"instructions\": [\"string\"],\n        \"tags\": [\"string\"],\n        \"pantryMatch\": number\n      \x7d\n    ]\n    Output *only pure JSON* (no markdown, explanations, or extra text).\n    "

/-- Prompt construction: the template literal of `generateRecipes` with
`$\x7bavailableIngredients || "no ingredients"\x7d` interpolated; the empty
string is the only falsy string, so it alone is replaced. -/
def buildPrompt (ingredients : String) : String :=
  promptPart1 ++ (if ingredients = "" then "no ingredients" else ingredients) ++ promptPart2

/-- Result of the external model call, which is opaque to this core: a
response text, or a transport-level failure (network, auth, quota). -/
inductive ModelResult where
  | ok (text : String)
  | transportError

/-- User-visible toasts raised by `generateRecipes`. -/
inductive Toast where
  | parseErrorToast
  | successToast (count : Option Nat)
  | genericErrorToast
deriving Repr, DecidableEq

/-- Transient component state owned by `RecipeGenerator`: the held recipe
value (`useState<Recipe[]>([])`), the `isGenerating` flag, and the toasts
issued so far. -/
structure GenState where
  recipes : Json
  isGenerating : Bool
  toasts : List Toast
deriving Repr

/-- Component state on first mount: empty recipe list, not generating. -/
def initialState : GenState :=
  { recipes := Json.arr [], isGenerating := false, toasts := [] }

/-- JavaScript `v.length` as used in the success toast: defined for arrays
and strings, `undefined` (`none`) for objects/numbers/booleans, and a
`TypeError` on `null`. -/
def jsLengthE : Json → Except JsError (Option Nat)
  | Json.arr xs => Except.ok (some xs.length)
  | Json.str s => Except.ok (some s.length)
  | Json.null => Except.error JsError.typeError
  | _ => Except.ok none

/-- One run of `generateRecipes`, as a state transition parameterized by
the opaque model call's outcome.  Mirrors the source control flow: set
`isGenerating`; on transport failure the outer `catch` toasts the generic
error; on parse failure the inner `catch` toasts the parse error and
returns; a fault in the filter (or in the success toast's `.length`)
reaches the outer `catch`; otherwise the recipes are stored and the
success toast raised.  The `finally` clause clears `isGenerating` on every
path. -/
def generateRecipes (dietType : String) (resp : ModelResult) (s : GenState) : GenState :=
  let s1 : GenState := { s with isGenerating := true }
  match resp with
  | ModelResult.transportError =>
    { s1 with toasts := s1.toasts ++ [Toast.genericErrorToast], isGenerating := false }
  | ModelResult.ok text =>
    match JSONparseL (cleanText text) with
    | none =>
      { s1 with toasts := s1.toasts ++ [Toast.parseErrorToast], isGenerating := false }
    | some parsed =>
      match filterRecipes dietType parsed with
      | Except.error _ =>
        { s1 with toasts := s1.toasts ++ [Toast.genericErrorToast], isGenerating := false }
      | Except.ok filtered =>
        let s2 : GenState := { s1 with recipes := filtered }
        match jsLengthE filtered with
        | Except.error _ =>
          { s2 with toasts := s2.toasts ++ [Toast.genericErrorToast], isGenerating := false }
        | Except.ok n =>
          { s2 with toasts := s2.toasts ++ [Toast.successToast n], isGenerating := false }

/-- A record's `tags` field is an array (read without fault). -/
def hasArrayTags (r : Json) : Bool :=
  match jsGetField r "tags" with
  | Except.ok (some (Json.arr _)) => true
  | _ => false

/-- A record's `tags` field supports `.includes` (array or string): the
filter predicate cannot fault on such a record. -/
def tagsUsable (r : Json) : Bool :=
  match jsGetField r "tags" with
  | Except.ok (some (Json.arr _)) => true
  | Except.ok (some (Json.str _)) => true
  | _ => false

/-- The record's tag array contains the exact string `tag`
(case-sensitive), `false` when `tags` is not an array. -/
def hasTag (r : Json) (tag : String) : Bool :=
  match jsGetField r "tags" with
  | Except.ok (some (Json.arr ts)) =>
    ts.any fun j => match j with | Json.str s => s == tag | _ => false
  | _ => false

/-- The characters `json`, tail of the long fence marker. -/
def json4 : List Char := "json".toList

theorem fenceJson_eq_fence_append : fenceJson = fence ++ json4 := rfl

theorem removeFencesF_nil (f : Nat) : removeFencesF f [] = [] := by
  cases f with
  | zero => rfl
  | succ n => rfl

theorem startsWith_append_self (p s : List Char) : startsWith (p ++ s) p = true := by
  induction p with
  | nil => simp [startsWith]
  | cons a ps ih => simp [startsWith, ih]

theorem startsWith_length_le :
    ∀ (p s : List Char), startsWith s p = true → p.length ≤ s.length := by
  intro p
  induction p with
  | nil => intro s _; simp
  | cons a ps ih =>
    intro s h
    cases s with
    | nil => simp [startsWith] at h
    | cons c t =>
      simp only [startsWith, Bool.and_eq_true] at h
      simpa [Nat.succ_le_succ_iff] using ih t h.2

theorem startsWith_append_right :
    ∀ (p s u : List Char), startsWith s p = true → startsWith (s ++ u) p = true := by
  intro p
  induction p with
  | nil => intro s u _; cases s <;> simp [startsWith]
  | cons a ps ih =>
    intro s u h
    cases s with
    | nil => simp [startsWith] at h
    | cons c t =>
      simp only [startsWith, Bool.and_eq_true] at h
      simp [startsWith, h.1, ih t u h.2]

theorem startsWith_split :
    ∀ (p q s : List Char),
      startsWith s (p ++ q) = (startsWith s p && startsWith (s.drop p.length) q) := by
  intro p
  induction p with
  | nil => intro q s; simp [startsWith]
  | cons a ps ih =>
    intro q s
    cases s with
    | nil => simp [startsWith]
    | cons c t => simp [startsWith, ih, Bool.and_assoc]

theorem removeFencesF_fuel :
    ∀ (n f g : Nat) (cs : List Char),
      cs.length ≤ n → cs.length ≤ f → cs.length ≤ g →
      removeFencesF f cs = removeFencesF g cs := by
  intro n
  induction n with
  | zero =>
    intro f g cs hn _ _
    have : cs = [] := List.length_eq_zero.mp (Nat.le_antisymm hn (Nat.zero_le _))
    subst this
    simp [removeFencesF_nil]
  | succ n ih =>
    intro f g cs hn hf hg
    cases cs with
    | nil => simp [removeFencesF_nil]
    | cons c t =>
      have hf1 : 1 ≤ f := le_trans (by simp) hf
      have hg1 : 1 ≤ g := le_trans (by simp) hg
      obtain ⟨f', rfl⟩ : ∃ f', f = f' + 1 := ⟨f - 1, by omega⟩
      obtain ⟨g', rfl⟩ : ∃ g', g = g' + 1 := ⟨g - 1, by omega⟩
      simp only [List.length_cons] at hn hf hg
      simp only [removeFencesF]
      by_cases h7 : startsWith (c :: t) fenceJson = true
      · simp only [h7, if_true]
        exact ih f' g' _ (by simp [List.length_drop]; omega)
          (by simp [List.length_drop]; omega) (by simp [List.length_drop]; omega)
      · simp only [h7, if_false, Bool.false_eq_true]
        by_cases h3 : startsWith (c :: t) fence = true
        · simp only [h3, if_true]
          exact ih f' g' _ (by simp [List.length_drop]; omega)
            (by simp [List.length_drop]; omega) (by simp [List.length_drop]; omega)
        · simp only [h3, if_false, Bool.false_eq_true]
          exact congrArg (c :: ·) (ih f' g' t (by omega) (by omega) (by omega))

theorem removeFences_eq_fuel (f : Nat) (cs : List Char) (hf : cs.length ≤ f) :
    removeFences cs = removeFencesF f cs :=
  removeFencesF_fuel cs.length cs.length f cs le_rfl le_rfl hf

theorem removeFences_step7 (cs : List Char) (h : startsWith cs fenceJson = true) :
    removeFences cs = removeFences (cs.drop 7) := by
  have hlen : 7 ≤ cs.length := startsWith_length_le fenceJson cs h
  obtain ⟨m, hm⟩ : ∃ m, cs.length = m + 1 := ⟨cs.length - 1, by omega⟩
  have step : removeFences cs = removeFencesF m (cs.drop 7) := by
    rw [removeFences, hm]
    simp only [removeFencesF, h, if_true]
  rw [step]
  exact (removeFences_eq_fuel m (cs.drop 7) (by simp [List.length_drop]; omega)).symm

theorem removeFences_step3 (cs : List Char) (h7 : startsWith cs fenceJson = false)
    (h3 : startsWith cs fence = true) :
    removeFences cs = removeFences (cs.drop 3) := by
  have hlen : 3 ≤ cs.length := startsWith_length_le fence cs h3
  obtain ⟨m, hm⟩ : ∃ m, cs.length = m + 1 := ⟨cs.length - 1, by omega⟩
  have step : removeFences cs = removeFencesF m (cs.drop 3) := by
    rw [removeFences, hm]
    simp only [removeFencesF, h7, h3, if_true, if_false, Bool.false_eq_true]
  rw [step]
  exact (removeFences_eq_fuel m (cs.drop 3) (by simp [List.length_drop]; omega)).symm

theorem removeFences_cons (c : Char) (t : List Char)
    (h7 : startsWith (c :: t) fenceJson = false) (h3 : startsWith (c :: t) fence = false) :
    removeFences (c :: t) = c :: removeFences t := by
  have step : removeFences (c :: t) = c :: removeFencesF t.length t := by
    rw [removeFences, List.length_cons]
    simp only [removeFencesF, h7, h3, if_false, Bool.false_eq_true]
  rw [step, removeFences]

theorem removeFences_prepend_fenceJson (s : List Char) :
    removeFences (fenceJson ++ s) = removeFences s := by
  have hdrop : (fenceJson ++ s).drop 7 = s := by
    rw [show (7 : Nat) = fenceJson.length from rfl]
    exact List.drop_left fenceJson s
  rw [removeFences_step7 (fenceJson ++ s) (startsWith_append_self fenceJson s), hdrop]

theorem fence_eq : fence = [Char.ofNat 96, Char.ofNat 96, Char.ofNat 96] := rfl

theorem json4_eq : json4 = ['j', 's', 'o', 'n'] := rfl

theorem startsWith_nil_pat (s : List Char) : startsWith s [] = true := by
  cases s <;> rfl

theorem sw_json_of_append :
    ∀ (u : List Char), startsWith (u ++ fence) json4 = true → startsWith u json4 = true
  | [], h => absurd h (by decide)
  | [a], h => by
    rw [fence_eq, json4_eq] at h
    simp only [List.cons_append, List.nil_append, startsWith, Bool.and_eq_true,
      beq_iff_eq] at h
    exact absurd h.2.1 (by decide)
  | [a, b], h => by
    rw [fence_eq, json4_eq] at h
    simp only [List.cons_append, List.nil_append, startsWith, Bool.and_eq_true,
      beq_iff_eq] at h
    exact absurd h.2.2.1 (by decide)
  | [a, b, c], h => by
    rw [fence_eq, json4_eq] at h
    simp only [List.cons_append, List.nil_append, startsWith, Bool.and_eq_true,
      beq_iff_eq] at h
    exact absurd h.2.2.2.1 (by decide)
  | a :: b :: c :: d :: rest, h => by
    rw [json4_eq] at h ⊢
    simp only [List.cons_append, startsWith, Bool.and_eq_true, beq_iff_eq,
      startsWith_nil_pat, Bool.and_true] at h ⊢
    exact ⟨h.1, h.2.1, h.2.2.1, h.2.2.2⟩

theorem sw_fenceJson_append_fence (t : List Char) (h3 : startsWith t fence = true) :
    startsWith (t ++ fence) fenceJson = startsWith t fenceJson := by
  have hlen : 3 ≤ t.length := startsWith_length_le fence t h3
  have hdrop : (t ++ fence).drop 3 = t.drop 3 ++ fence :=
    List.drop_append_of_le_length hlen
  rw [fenceJson_eq_fence_append, startsWith_split, startsWith_split,
    show fence.length = 3 from rfl, hdrop, h3,
    startsWith_append_right fence t fence h3]
  simp only [Bool.true_and]
  by_cases hA : startsWith (t.drop 3) json4 = true
  · rw [hA, startsWith_append_right json4 (t.drop 3) fence hA]
  · have hAf : startsWith (t.drop 3) json4 = false := by
      revert hA; cases startsWith (t.drop 3) json4 <;> simp
    have hBf : startsWith (t.drop 3 ++ fence) json4 = false := by
      cases hB2 : startsWith (t.drop 3 ++ fence) json4
      · rfl
      · exact absurd (sw_json_of_append _ hB2) hA
    rw [hAf, hBf]

theorem sw_fence_of_fenceJson (s : List Char) (h : startsWith s fenceJson = true) :
    startsWith s fence = true := by
  rw [fenceJson_eq_fence_append, startsWith_split, Bool.and_eq_true] at h
  exact h.1

theorem removeFences_append_fence_aux :
    ∀ (n : Nat) (t : List Char), t.length ≤ n →
      removeFences (t ++ fence) = removeFences t := by
  intro n
  induction n with
  | zero =>
    intro t ht
    have h0 : t = [] := List.length_eq_zero.mp (Nat.le_antisymm ht (Nat.zero_le _))
    subst h0
    decide
  | succ n ih =>
    intro t ht
    by_cases h7 : startsWith t fenceJson = true
    · have h7' := startsWith_append_right fenceJson t fence h7
      have hlen : 7 ≤ t.length := startsWith_length_le _ _ h7
      rw [removeFences_step7 _ h7', removeFences_step7 _ h7,
        List.drop_append_of_le_length hlen]
      exact ih (t.drop 7) (by simp [List.length_drop]; omega)
    · have h7f : startsWith t fenceJson = false := by
        revert h7; cases startsWith t fenceJson <;> simp
      by_cases h3 : startsWith t fence = true
      · have h3' := startsWith_append_right fence t fence h3
        have h7'' : startsWith (t ++ fence) fenceJson = false := by
          rw [sw_fenceJson_append_fence t h3]; exact h7f
        have hlen : 3 ≤ t.length := startsWith_length_le _ _ h3
        rw [removeFences_step3 _ h7'' h3', removeFences_step3 _ h7f h3,
          List.drop_append_of_le_length hlen]
        exact ih (t.drop 3) (by simp [List.length_drop]; omega)
      · have h3f : startsWith t fence = false := by
          revert h3; cases startsWith t fence <;> simp
        cases t with
        | nil => decide
        | cons c t0 =>
          by_cases hf3 : startsWith ((c :: t0) ++ fence) fence = true
          · -- a new fence match can only arise when t is one or two backticks
            match t0 with
            | [] =>
              have hc : c = Char.ofNat 96 := by
                rw [fence_eq] at hf3
                simp only [List.cons_append, List.nil_append, startsWith,
                  Bool.and_eq_true, beq_iff_eq] at hf3
                exact hf3.1
              subst hc; decide
            | [d] =>
              have hcd : c = Char.ofNat 96 ∧ d = Char.ofNat 96 := by
                rw [fence_eq] at hf3
                simp only [List.cons_append, List.nil_append, startsWith,
                  Bool.and_eq_true, beq_iff_eq] at hf3
                exact ⟨hf3.1, hf3.2.1⟩
              obtain ⟨hc, hd⟩ := hcd
              subst hc; subst hd; decide
            | d :: e :: t1 =>
              have : startsWith (c :: d :: e :: t1) fence = true := by
                rw [fence_eq] at hf3 ⊢
                simp only [List.cons_append, startsWith, startsWith_nil_pat,
                  Bool.and_true] at hf3 ⊢
                exact hf3
              exact absurd this h3
          · have hf3f : startsWith ((c :: t0) ++ fence) fence = false := by
              revert hf3; cases startsWith ((c :: t0) ++ fence) fence <;> simp
            have hf7f : startsWith ((c :: t0) ++ fence) fenceJson = false := by
              cases hj : startsWith ((c :: t0) ++ fence) fenceJson
              · rfl
              · exact absurd (sw_fence_of_fenceJson _ hj) hf3
            have hstep : (c :: t0) ++ fence = c :: (t0 ++ fence) := rfl
            rw [hstep] at hf7f hf3f
            rw [hstep, removeFences_cons c (t0 ++ fence) hf7f hf3f,
              removeFences_cons c t0 h7f h3f]
            exact congrArg (c :: ·) (ih t0 (by simp at ht; omega))

theorem removeFences_append_fence (t : List Char) :
    removeFences (t ++ fence) = removeFences t :=
  removeFences_append_fence_aux t.length t le_rfl

theorem removeFences_of_no_fence_aux :
    ∀ (n : Nat) (cs : List Char), cs.length ≤ n →
      strContains cs fence = false → removeFences cs = cs := by
  intro n
  induction n with
  | zero =>
    intro cs hlen _
    have h0 : cs = [] := List.length_eq_zero.mp (Nat.le_antisymm hlen (Nat.zero_le _))
    subst h0; rfl
  | succ n ih =>
    intro cs hlen h
    cases cs with
    | nil => rfl
    | cons c t =>
      have hparts : startsWith (c :: t) fence = false ∧ strContains t fence = false := by
        revert h
        simp only [strContains]
        cases startsWith (c :: t) fence <;> cases strContains t fence <;> simp
      have h7f : startsWith (c :: t) fenceJson = false := by
        cases hj : startsWith (c :: t) fenceJson
        · rfl
        · exact absurd (sw_fence_of_fenceJson _ hj) (by rw [hparts.1]; simp)
      rw [removeFences_cons c t h7f hparts.1]
      exact congrArg (c :: ·) (ih t (by simp at hlen; omega) hparts.2)

theorem removeFences_of_no_fence (cs : List Char) (h : strContains cs fence = false) :
    removeFences cs = cs :=
  removeFences_of_no_fence_aux cs.length cs le_rfl h

theorem string_toList_eq_data (s : String) : s.toList = s.data := rfl

theorem cleanText_wrap (t : String) :
    cleanText ("```json" ++ t ++ "```") = cleanText t := by
  unfold cleanText
  congr 1
  have h1 : ("```json" ++ t ++ "```").toList = (fenceJson ++ t.toList) ++ fence := by
    simp only [string_toList_eq_data, String.data_append]
    simp [fenceJson, fence, string_toList_eq_data]
  rw [h1, removeFences_append_fence (fenceJson ++ t.toList),
    removeFences_prepend_fenceJson]

theorem hasArrayTags_elim (r : Json) (h : hasArrayTags r = true) :
    ∃ ts, jsGetField r "tags" = Except.ok (some (Json.arr ts)) := by
  unfold hasArrayTags at h
  split at h
  · next ts heq => exact ⟨ts, heq⟩
  · exact absurd h (by simp)

theorem recipePred_of_arrayTags (r : Json) (h : hasArrayTags r = true) :
    recipePred r = Except.ok (hasTag r "Vegetarian" || hasTag r "Vegan") := by
  obtain ⟨ts, heq⟩ := hasArrayTags_elim r h
  have h1 : hasTag r "Vegetarian" =
      (ts.any fun j => match j with | Json.str s => s == "Vegetarian" | _ => false) := by
    simp [hasTag, heq]
  have h2 : hasTag r "Vegan" =
      (ts.any fun j => match j with | Json.str s => s == "Vegan" | _ => false) := by
    simp [hasTag, heq]
  rw [h1, h2]
  simp only [recipePred, heq, jsIncludes, bind, Except.bind]
  cases hb : ts.any fun j => match j with | Json.str s => s == "Vegetarian" | _ => false <;>
    simp [hb, pure, Except.pure]

theorem jsFilter_ok_formula (xs : List Json) (h : ∀ r ∈ xs, hasArrayTags r = true) :
    jsFilter recipePred xs =
      Except.ok (xs.filter fun r => hasTag r "Vegetarian" || hasTag r "Vegan") := by
  induction xs with
  | nil => rfl
  | cons x xs ih =>
    have hx := recipePred_of_arrayTags x (h x (by simp))
    have hxs := ih fun r hr => h r (by simp [hr])
    simp only [jsFilter, hx, hxs, bind, Except.bind, pure, Except.pure, List.filter_cons]

theorem filterRecipes_restricted (d : String) (hd : d = "vegetarian" ∨ d = "vegan")
    (xs : List Json) (h : ∀ r ∈ xs, hasArrayTags r = true) :
    filterRecipes d (Json.arr xs) =
      Except.ok (Json.arr (xs.filter fun r => hasTag r "Vegetarian" || hasTag r "Vegan")) := by
  unfold filterRecipes
  rw [if_pos hd]
  show Except.map Json.arr (jsFilter recipePred xs) = _
  rw [jsFilter_ok_formula xs h]
  rfl

theorem jsFilter_ok_sublist (p : Json → Except JsError Bool) :
    ∀ (xs ys : List Json), jsFilter p xs = Except.ok ys → ys.Sublist xs := by
  intro xs
  induction xs with
  | nil =>
    intro ys h
    simp only [jsFilter, Except.ok.injEq] at h
    subst h; exact List.Sublist.refl []
  | cons x xs ih =>
    intro ys h
    cases hpx : p x with
    | error e => simp [jsFilter, hpx, bind, Except.bind] at h
    | ok b =>
      cases hrest : jsFilter p xs with
      | error e => simp [jsFilter, hpx, hrest, bind, Except.bind] at h
      | ok rest =>
        have hys : ys = if b then x :: rest else rest := by
          simp only [jsFilter, hpx, hrest, bind, Except.bind, pure, Except.pure,
            Except.ok.injEq] at h
          exact h.symm
        subst hys
        cases b with
        | false => exact List.Sublist.cons x (ih rest hrest)
        | true => exact List.Sublist.cons₂ x (ih rest hrest)

theorem jsFilter_error_of_mem (xs : List Json) (r : Json) (hr : r ∈ xs)
    (he : recipePred r = Except.error JsError.typeError) :
    jsFilter recipePred xs = Except.error JsError.typeError := by
  induction xs with
  | nil => cases hr
  | cons x xs ih =>
    cases hpx : recipePred x with
    | error e =>
      cases e
      simp [jsFilter, hpx, bind, Except.bind]
    | ok b =>
      rcases List.mem_cons.mp hr with h1 | h2
      · subst h1; rw [hpx] at he; cases he
      · simp [jsFilter, hpx, ih h2, bind, Except.bind]

theorem recipePred_fault (r : Json) (h : tagsUsable r = false) :
    recipePred r = Except.error JsError.typeError := by
  cases hE : jsGetField r "tags" with
  | error e =>
    cases e
    simp [recipePred, hE, bind, Except.bind]
  | ok o =>
    cases o with
    | none => simp [recipePred, hE, bind, Except.bind]
    | some v =>
      cases v with
      | arr ts => rw [tagsUsable, hE] at h; simp at h
      | str s => rw [tagsUsable, hE] at h; simp at h
      | null => simp [recipePred, hE, jsIncludes, bind, Except.bind]
      | bool b => simp [recipePred, hE, jsIncludes, bind, Except.bind]
      | num m e => simp [recipePred, hE, jsIncludes, bind, Except.bind]
      | obj fs => simp [recipePred, hE, jsIncludes, bind, Except.bind]

theorem strContains_append_left :
    ∀ (a s sub : List Char), strContains s sub = true → strContains (a ++ s) sub = true := by
  intro a
  induction a with
  | nil => intro s sub h; simpa using h
  | cons x axs ih =>
    intro s sub h
    show (startsWith (x :: (axs ++ s)) sub || strContains (axs ++ s) sub) = true
    rw [ih s sub h]
    simp

theorem strContains_self_append (b c : List Char) : strContains (b ++ c) b = true := by
  cases b with
  | nil =>
    cases c with
    | nil => rfl
    | cons y t => simp [strContains, startsWith_nil_pat]
  | cons y bs =>
    have h1 : startsWith ((y :: bs) ++ c) (y :: bs) = true := startsWith_append_self _ _
    simp only [List.cons_append] at h1 ⊢
    simp [strContains, h1]

theorem strContains_append_mid (a b c : List Char) : strContains (a ++ (b ++ c)) b = true :=
  strContains_append_left a (b ++ c) b (strContains_self_append b c)

/-- Recipe record carrying only the tag "Vegetarian". -/
def vegetarianOnlyRecord : Json := Json.obj [("tags", Json.arr [Json.str "Vegetarian"])]

/-- Recipe record carrying only the tag "Vegan" (first record of the
specification's two-record example). -/
def veganRecord : Json := Json.obj [("tags", Json.arr [Json.str "Vegan"])]

/-- Recipe record carrying only the tag "Meat" (second record of the
specification's two-record example). -/
def meatRecord : Json := Json.obj [("tags", Json.arr [Json.str "Meat"])]

/-- Parsed record whose `tags` field is the string "Vegan" rather than an
array: it lacks an array-valued tag set, yet JavaScript string
`includes` makes the filter predicate succeed on it. -/
def stringTagsRecord : Json := Json.obj [("tags", Json.str "Vegan")]

/-- Parsed record with no `tags` field at all. -/
def noTagsRecord : Json := Json.obj [("name", Json.str "x")]

/-- C1, claim as stated is false: the source filters with
`r.tags.includes("Vegetarian") || r.tags.includes("Vegan")` for both
restricted diet types, so under diet type vegan a record tagged only
"Vegetarian" — which does not carry the tag "Vegan" — is nevertheless
retained. -/
theorem c1_claim_counterexample :
    filterRecipes "vegan" (Json.arr [vegetarianOnlyRecord]) =
      Except.ok (Json.arr [vegetarianOnlyRecord]) ∧
    hasTag vegetarianOnlyRecord "Vegan" = false :=
  ⟨rfl, rfl⟩

/-- C1 (amended): for every successfully parsed batch of recipe records
(records with array-valued tag sets), when the diet type is vegan the
filter step retains exactly those records whose tag set contains
"Vegetarian" or contains "Vegan" (case-sensitive exact string matching on
the tag); in particular a record tagged only "Vegetarian" is also
retained under the vegan diet type. -/
theorem c1_amended_vegan_filter (xs : List Json)
    (h : ∀ r ∈ xs, hasArrayTags r = true) :
    filterRecipes "vegan" (Json.arr xs) =
      Except.ok (Json.arr (xs.filter fun r => hasTag r "Vegetarian" || hasTag r "Vegan")) :=
  filterRecipes_restricted "vegan" (Or.inr rfl) xs h

/-- Witness for C1 (amended) at the one-record batch tagged only
"Vegetarian": the filter under diet type vegan keeps it. -/
theorem c1_amended_vegan_filter_witness :
    (∀ r ∈ [vegetarianOnlyRecord], hasArrayTags r = true) ∧
    filterRecipes "vegan" (Json.arr [vegetarianOnlyRecord]) =
      Except.ok (Json.arr ([vegetarianOnlyRecord].filter
        fun r => hasTag r "Vegetarian" || hasTag r "Vegan")) :=
  ⟨by decide, c1_amended_vegan_filter [vegetarianOnlyRecord] (by decide)⟩

/-- C2: for every successfully parsed batch of recipe records (records
with array-valued tag sets), when the diet type is "vegetarian" the
output contains exactly those records whose tag set includes "Vegetarian"
or includes "Vegan" (case-sensitive). -/
theorem c2_vegetarian_filter (xs : List Json)
    (h : ∀ r ∈ xs, hasArrayTags r = true) :
    filterRecipes "vegetarian" (Json.arr xs) =
      Except.ok (Json.arr (xs.filter fun r => hasTag r "Vegetarian" || hasTag r "Vegan")) :=
  filterRecipes_restricted "vegetarian" (Or.inl rfl) xs h

/-- Witness for C2 at the specification's example: the parsed batch
`[\x7btags:["Vegan"]\x7d, \x7btags:["Meat"]\x7d]` under diet type
"vegetarian" yields exactly the first record, also through the full
interpreter on the corresponding JSON text. -/
theorem c2_vegetarian_filter_witness :
    (∀ r ∈ [veganRecord, meatRecord], hasArrayTags r = true) ∧
    filterRecipes "vegetarian" (Json.arr [veganRecord, meatRecord]) =
      Except.ok (Json.arr [veganRecord]) ∧
    interpret "[\x7b\"tags\":[\"Vegan\"]\x7d,\x7b\"tags\":[\"Meat\"]\x7d]" "vegetarian" =
      Except.ok (Json.arr [veganRecord]) :=
  ⟨by decide, (c2_vegetarian_filter [veganRecord, meatRecord] (by decide)).trans rfl, rfl⟩

/-- C5: for every diet type, whenever the filter step succeeds on a
parsed batch, each record of the output is identically one of the records
of the input batch — the output is a sublist of the input, so filtering
never fabricates or mutates records. -/
theorem c5_filter_output_sublist (d : String) (xs ys : List Json)
    (h : filterRecipes d (Json.arr xs) = Except.ok (Json.arr ys)) :
    ys.Sublist xs := by
  unfold filterRecipes at h
  by_cases hd : d = "vegetarian" ∨ d = "vegan"
  · rw [if_pos hd] at h
    have h' : Except.map Json.arr (jsFilter recipePred xs) = Except.ok (Json.arr ys) := h
    cases hjf : jsFilter recipePred xs with
    | error e => rw [hjf] at h'; simp [Except.map] at h'
    | ok zs =>
      rw [hjf] at h'
      simp only [Except.map, Except.ok.injEq, Json.arr.injEq] at h'
      subst h'
      exact jsFilter_ok_sublist recipePred xs _ hjf
  · rw [if_neg hd] at h
    have h' : (Except.ok (Json.arr xs) : Except JsError Json) = Except.ok (Json.arr ys) := h
    simp only [Except.ok.injEq, Json.arr.injEq] at h'
    subst h'
    exact List.Sublist.refl _

/-- Witness for C5: the vegetarian filter on the two-record example batch
returns a sublist of the batch. -/
theorem c5_filter_output_sublist_witness :
    filterRecipes "vegetarian" (Json.arr [veganRecord, meatRecord]) =
      Except.ok (Json.arr [veganRecord]) ∧
    List.Sublist [veganRecord] [veganRecord, meatRecord] :=
  ⟨rfl, c5_filter_output_sublist "vegetarian" [veganRecord, meatRecord] [veganRecord] rfl⟩

/-- C3: for every raw response text whose sanitized form is not valid
JSON, the interpretation step signals a parse error (never a partial
sequence), and one run of `generateRecipes` leaves the held recipe list
exactly at its prior value, raising only the parse-error toast — the
error path is atomic with respect to the recipe state. -/
theorem c3_parse_failure_atomic (t d : String) (s : GenState)
    (h : JSONparseL (cleanText t) = none) :
    interpret t d = Except.error InterpretError.parseError ∧
    generateRecipes d (ModelResult.ok t) s =
      { s with toasts := s.toasts ++ [Toast.parseErrorToast], isGenerating := false } ∧
    (generateRecipes d (ModelResult.ok t) s).recipes = s.recipes := by
  refine ⟨?_, ?_, ?_⟩
  · simp [interpret, h]
  · simp [generateRecipes, h]
  · simp [generateRecipes, h]

/-- Witness for C3 at the non-JSON response "not json" on the pristine
component state. -/
theorem c3_parse_failure_atomic_witness :
    JSONparseL (cleanText "not json") = none ∧
    interpret "not json" "vegan" = Except.error InterpretError.parseError ∧
    (generateRecipes "vegan" (ModelResult.ok "not json") initialState).recipes =
      initialState.recipes :=
  ⟨rfl, (c3_parse_failure_atomic "not json" "vegan" initialState rfl).1,
    (c3_parse_failure_atomic "not json" "vegan" initialState rfl).2.2⟩

/-- C4, claim as stated is false in its sanitization clause: the regex
replace is global, so fence markers are deleted everywhere, not only as
enclosing wrappers — the text "a\x60\x60\x60b" has no enclosing fence
markers, yet sanitization turns it into "ab" instead of passing it
through unchanged apart from trimming. -/
theorem c4_claim_counterexample :
    cleanText "a```b" = "ab".toList ∧
    jsTrim "a```b".toList = "a```b".toList ∧
    "ab".toList ≠ "a```b".toList :=
  ⟨rfl, rfl, by decide⟩

/-- C4 (amended): interpreting the fenced wrapping of any inner text
produces the same result as interpreting the inner text itself, and
sanitization passes text containing no fence marker through unchanged
apart from whitespace trimming; however, sanitization deletes every
occurrence of the fence markers, not only enclosing ones. -/
theorem c4_fence_wrap_invariant (t d : String) :
    interpret ("```json" ++ t ++ "```") d = interpret t d ∧
    (strContains t.toList fence = false → cleanText t = jsTrim t.toList) := by
  constructor
  · unfold interpret
    rw [cleanText_wrap]
  · intro hf
    unfold cleanText
    rw [removeFences_of_no_fence t.toList hf]

/-- Witness for C4 (amended) at the fence-free inner text "[]" under diet
type "omnivore". -/
theorem c4_fence_wrap_invariant_witness :
    strContains "[]".toList fence = false ∧
    cleanText "[]" = jsTrim "[]".toList ∧
    interpret ("```json" ++ "[]" ++ "```") "omnivore" = interpret "[]" "omnivore" :=
  ⟨by decide, (c4_fence_wrap_invariant "[]" "omnivore").2 (by decide),
    (c4_fence_wrap_invariant "[]" "omnivore").1⟩

/-- C6: the constructed prompt contains the literal text "no ingredients"
when the ingredient string is empty, and contains the ingredient string
verbatim as a substring when it is non-empty; `buildPrompt` is a total
pure function, so construction cannot fail. -/
theorem c6_buildPrompt_ingredients (s : String) :
    (s = "" → strContains (buildPrompt s).toList "no ingredients".toList = true) ∧
    (s ≠ "" → strContains (buildPrompt s).toList s.toList = true) := by
  constructor
  · intro h
    subst h
    decide
  · intro h
    have hsplit : (buildPrompt s).toList =
        promptPart1.toList ++ (s.toList ++ promptPart2.toList) := by
      simp only [buildPrompt, if_neg h, string_toList_eq_data, String.data_append,
        List.append_assoc]
    rw [hsplit]
    exact strContains_append_mid _ _ _

/-- Witness for C6 at the empty ingredient string and at "eggs". -/
theorem c6_buildPrompt_ingredients_witness :
    strContains (buildPrompt "").toList "no ingredients".toList = true ∧
    ("eggs" : String) ≠ "" ∧
    strContains (buildPrompt "eggs").toList "eggs".toList = true :=
  ⟨(c6_buildPrompt_ingredients "").1 rfl, by decide,
    (c6_buildPrompt_ingredients "eggs").2 (by decide)⟩

theorem interpret_eq_of_parse (t d : String) (j : Json)
    (hp : JSONparseL (cleanText t) = some j)
    (v : Json) (hf : filterRecipes d j = Except.ok v) :
    interpret t d = Except.ok v := by
  simp [interpret, hp, hf]

/-- C7: when the diet type is "omnivore" or any value other than
"vegetarian"/"vegan", the filter step passes the parsed value through
with no records removed, and the two-record example yields both
records. -/
theorem c7_unrestricted_no_filtering (d : String) (parsed : Json)
    (h1 : d ≠ "vegetarian") (h2 : d ≠ "vegan") :
    filterRecipes d parsed = Except.ok parsed ∧
    interpret "[\x7b\"tags\":[\"Vegan\"]\x7d,\x7b\"tags\":[\"Meat\"]\x7d]" d =
      Except.ok (Json.arr [veganRecord, meatRecord]) := by
  have hfilter : ∀ p : Json, filterRecipes d p = Except.ok p := by
    intro p
    unfold filterRecipes
    rw [if_neg]
    rintro (h | h)
    · exact h1 h
    · exact h2 h
  exact ⟨hfilter parsed,
    interpret_eq_of_parse "[\x7b\"tags\":[\"Vegan\"]\x7d,\x7b\"tags\":[\"Meat\"]\x7d]" d
      (Json.arr [veganRecord, meatRecord]) rfl _ (hfilter _)⟩

/-- Witness for C7 at diet type "omnivore" on the two-record example. -/
theorem c7_unrestricted_no_filtering_witness :
    ("omnivore" : String) ≠ "vegetarian" ∧ ("omnivore" : String) ≠ "vegan" ∧
    filterRecipes "omnivore" (Json.arr [veganRecord, meatRecord]) =
      Except.ok (Json.arr [veganRecord, meatRecord]) ∧
    interpret "[\x7b\"tags\":[\"Vegan\"]\x7d,\x7b\"tags\":[\"Meat\"]\x7d]" "omnivore" =
      Except.ok (Json.arr [veganRecord, meatRecord]) :=
  ⟨by decide, by decide,
    (c7_unrestricted_no_filtering "omnivore" (Json.arr [veganRecord, meatRecord])
      (by decide) (by decide)).1,
    (c7_unrestricted_no_filtering "omnivore" (Json.arr [veganRecord, meatRecord])
      (by decide) (by decide)).2⟩

/-- C8: interpreting the input text "[]" — bare or fence-wrapped — is a
valid, non-error outcome yielding the empty output sequence, for every
diet type, distinct from the parse-error outcome. -/
theorem c8_empty_array_valid (d : String) :
    interpret "[]" d = Except.ok (Json.arr []) ∧
    interpret "```json[]```" d = Except.ok (Json.arr []) := by
  have hfilter : filterRecipes d (Json.arr []) = Except.ok (Json.arr []) := by
    unfold filterRecipes
    by_cases hd : d = "vegetarian" ∨ d = "vegan"
    · rw [if_pos hd]; rfl
    · rw [if_neg hd]
  exact ⟨interpret_eq_of_parse "[]" d (Json.arr []) rfl _ hfilter,
    interpret_eq_of_parse "```json[]```" d (Json.arr []) rfl _ hfilter⟩


/-- C10, claim as stated is false: a parsed record whose `tags` field is
the string "Vegan" lacks an array-valued tags field, yet the filter step
does not fault — JavaScript strings have an `includes` method, so the
record is retained via substring matching and the operation succeeds. -/
theorem c10_claim_counterexample :
    hasArrayTags stringTagsRecord = false ∧
    filterRecipes "vegan" (Json.arr [stringTagsRecord]) =
      Except.ok (Json.arr [stringTagsRecord]) :=
  ⟨rfl, rfl⟩

/-- C10 (amended): if the diet type is vegetarian or vegan and some
element of the parsed array has a `tags` field that is neither an array
nor a string (missing, null, number, boolean or object), the filter step
faults; the fault is caught by the surrounding handler, the operation
ends in the generic failure path, and the held recipe list is left
unchanged. -/
theorem c10_unusable_tags_fault_caught (t d : String) (s : GenState)
    (xs : List Json) (r : Json)
    (hp : JSONparseL (cleanText t) = some (Json.arr xs))
    (hd : d = "vegetarian" ∨ d = "vegan")
    (hr : r ∈ xs) (hu : tagsUsable r = false) :
    generateRecipes d (ModelResult.ok t) s =
      { s with toasts := s.toasts ++ [Toast.genericErrorToast], isGenerating := false } ∧
    (generateRecipes d (ModelResult.ok t) s).recipes = s.recipes := by
  have hferr : filterRecipes d (Json.arr xs) = Except.error JsError.typeError := by
    unfold filterRecipes
    rw [if_pos hd]
    show Except.map Json.arr (jsFilter recipePred xs) = _
    rw [jsFilter_error_of_mem xs r hr (recipePred_fault r hu)]
    rfl
  constructor
  · simp [generateRecipes, hp, hferr]
  · simp [generateRecipes, hp, hferr]

/-- Witness for C10 (amended) at a one-record batch whose record has no
`tags` field, under diet type "vegetarian". -/
theorem c10_unusable_tags_fault_caught_witness :
    JSONparseL (cleanText "[\x7b\"name\":\"x\"\x7d]") = some (Json.arr [noTagsRecord]) ∧
    tagsUsable noTagsRecord = false ∧
    (generateRecipes "vegetarian" (ModelResult.ok "[\x7b\"name\":\"x\"\x7d]")
      initialState).recipes = initialState.recipes :=
  ⟨rfl, rfl,
    (c10_unusable_tags_fault_caught "[\x7b\"name\":\"x\"\x7d]" "vegetarian" initialState
      [noTagsRecord] noTagsRecord rfl (Or.inl rfl) (by simp) rfl).2⟩

/-- Character allowed unescaped inside a JSON string literal: not a
quote, not a backslash, not a control character below U+0020. -/
def jsonPlain (c : Char) : Bool :=
  !(c == '"') && !(c == '\\') && !(decide (c.toNat < 32))

/-- Character allowed in a string body that the sanitizer must leave
alone: a plain JSON string character that is also not a backtick. -/
def plainChar (c : Char) : Bool :=
  jsonPlain c && !(c == Char.ofNat 96)

/-- JSON array text consisting of one string value with an interior
fence: `["<a>\x60\x60\x60<b>"]`. -/
def fencedArrayText (a b : List Char) : String :=
  String.mk ('[' :: '"' :: (a ++ fence ++ b) ++ '"' :: ']' :: [])

/-- The same array text with the interior fence deleted. -/
def plainArrayText (a b : List Char) : String :=
  String.mk ('[' :: '"' :: (a ++ b) ++ '"' :: ']' :: [])

theorem jsonPlain_elim (c : Char) (h : jsonPlain c = true) :
    ¬(c = '"') ∧ ¬(c = '\\') ∧ ¬(c.toNat < 32) := by
  simp only [jsonPlain, Bool.and_eq_true, Bool.not_eq_true', beq_eq_false_iff_ne, ne_eq,
    decide_eq_false_iff_not] at h
  exact ⟨h.1.1, h.1.2, h.2⟩

theorem plainChar_elim (c : Char) (h : plainChar c = true) :
    jsonPlain c = true ∧ (c == Char.ofNat 96) = false := by
  simp only [plainChar, Bool.and_eq_true, Bool.not_eq_true'] at h
  exact h

theorem fenceJson_chars :
    fenceJson = [Char.ofNat 96, Char.ofNat 96, Char.ofNat 96, 'j', 's', 'o', 'n'] := rfl

theorem removeFences_cons_ne_btick (d : Char) (t : List Char)
    (hd : (d == Char.ofNat 96) = false) :
    removeFences (d :: t) = d :: removeFences t := by
  apply removeFences_cons
  · rw [fenceJson_chars]
    simp [startsWith, hd]
  · rw [fence_eq]
    simp [startsWith, hd]

theorem removeFences_append_no_btick :
    ∀ (u w : List Char), (∀ c ∈ u, (c == Char.ofNat 96) = false) →
      removeFences (u ++ w) = u ++ removeFences w := by
  intro u
  induction u with
  | nil => intro w _; rfl
  | cons c u' ih =>
    intro w hu
    show removeFences (c :: (u' ++ w)) = c :: (u' ++ removeFences w)
    rw [removeFences_cons_ne_btick c (u' ++ w) (hu c (by simp)),
      ih w fun d hd => hu d (by simp [hd])]

theorem removeFences_fence_append (v : List Char) (hv : startsWith v json4 = false) :
    removeFences (fence ++ v) = removeFences v := by
  have h7 : startsWith (fence ++ v) fenceJson = false := by
    rw [fenceJson_eq_fence_append, startsWith_split,
      show fence.length = 3 from rfl,
      show (fence ++ v).drop 3 = v from List.drop_left fence v,
      startsWith_append_self, hv]
    rfl
  have h3 : startsWith (fence ++ v) fence = true := startsWith_append_self fence v
  rw [removeFences_step3 _ h7 h3,
    show (fence ++ v).drop 3 = v from List.drop_left fence v]

theorem sw_json_of_append_qb :
    ∀ (b : List Char), startsWith (b ++ '"' :: ']' :: []) json4 = true →
      startsWith b json4 = true
  | [], h => absurd h (by decide)
  | [x], h => by
    rw [json4_eq] at h
    simp only [List.cons_append, List.nil_append, startsWith, Bool.and_eq_true,
      beq_iff_eq] at h
    exact absurd h.2.1 (by decide)
  | [x, y], h => by
    rw [json4_eq] at h
    simp only [List.cons_append, List.nil_append, startsWith, Bool.and_eq_true,
      beq_iff_eq] at h
    exact absurd h.2.2.1 (by decide)
  | [x, y, z], h => by
    rw [json4_eq] at h
    simp only [List.cons_append, List.nil_append, startsWith, Bool.and_eq_true,
      beq_iff_eq] at h
    exact absurd h.2.2.2.1 (by decide)
  | x :: y :: z :: w :: rest, h => by
    rw [json4_eq] at h ⊢
    simp only [List.cons_append, startsWith, Bool.and_eq_true, beq_iff_eq,
      startsWith_nil_pat, Bool.and_true] at h ⊢
    exact ⟨h.1, h.2.1, h.2.2.1, h.2.2.2⟩

theorem jsTrim_of_ends (c d : Char) (mid : List Char)
    (hc : isJsWs c = false) (hd : isJsWs d = false) :
    jsTrim (c :: mid ++ [d]) = c :: mid ++ [d] := by
  unfold jsTrim
  rw [show (c :: mid ++ [d]).dropWhile isJsWs = c :: mid ++ [d] from by
    simp [List.dropWhile_cons, hc]]
  rw [show (c :: mid ++ [d]).reverse = d :: (mid.reverse ++ [c]) from by simp]
  rw [show (d :: (mid.reverse ++ [c])).dropWhile isJsWs = d :: (mid.reverse ++ [c]) from by
    simp [List.dropWhile_cons, hd]]
  simp

theorem strContains_pfx :
    ∀ (s p q : List Char), strContains s (p ++ q) = true → strContains s p = true := by
  intro s p q
  induction s with
  | nil =>
    intro h
    simp only [strContains] at h ⊢
    rcases List.append_eq_nil.mp (by simpa using h) with ⟨hp, _⟩
    simp [hp]
  | cons c t ih =>
    intro h
    simp only [strContains, Bool.or_eq_true] at h ⊢
    rcases h with h | h
    · rw [startsWith_split, Bool.and_eq_true] at h
      exact Or.inl h.1
    · exact Or.inr (ih h)

theorem removeFences_head1 (t : List Char)
    (h : startsWith t [Char.ofNat 96] = false) :
    startsWith (removeFences t) [Char.ofNat 96] = false := by
  cases t with
  | nil => decide
  | cons e t' =>
    have he : (e == Char.ofNat 96) = false := by
      simp only [startsWith, startsWith_nil_pat, Bool.and_true] at h
      exact h
    rw [removeFences_cons_ne_btick e t' he]
    simp only [startsWith, startsWith_nil_pat, Bool.and_true]
    exact he

theorem removeFences_head2 (t : List Char)
    (h : startsWith t [Char.ofNat 96, Char.ofNat 96] = false) :
    startsWith (removeFences t) [Char.ofNat 96, Char.ofNat 96] = false := by
  cases t with
  | nil => decide
  | cons d t' =>
    by_cases hd : (d == Char.ofNat 96) = true
    · have ht' : startsWith t' [Char.ofNat 96] = false := by
        simp only [startsWith, hd, Bool.true_and] at h
        exact h
      have ht'2 : startsWith t' [Char.ofNat 96, Char.ofNat 96] = false := by
        rw [show [Char.ofNat 96, Char.ofNat 96] = [Char.ofNat 96] ++ [Char.ofNat 96] from rfl,
          startsWith_split, ht']
        rfl
      have hfence : startsWith (d :: t') fence = false := by
        rw [fence_eq]
        simp only [startsWith, hd, Bool.true_and]
        exact ht'2
      have hfj : startsWith (d :: t') fenceJson = false := by
        cases hj : startsWith (d :: t') fenceJson
        · rfl
        · exact absurd (sw_fence_of_fenceJson _ hj) (by rw [hfence]; simp)
      rw [removeFences_cons d t' hfj hfence]
      simp only [startsWith, hd, Bool.true_and]
      exact removeFences_head1 t' ht'
    · have hdf : (d == Char.ofNat 96) = false := by
        revert hd; cases (d == Char.ofNat 96) <;> simp
      rw [removeFences_cons_ne_btick d t' hdf]
      simp [startsWith, hdf]

theorem removeFences_result_no_fence_aux :
    ∀ (n : Nat) (cs : List Char), cs.length ≤ n →
      strContains (removeFences cs) fence = false := by
  intro n
  induction n with
  | zero =>
    intro cs h
    have h0 : cs = [] := List.length_eq_zero.mp (Nat.le_antisymm h (Nat.zero_le _))
    subst h0; decide
  | succ n ih =>
    intro cs hlen
    by_cases h7 : startsWith cs fenceJson = true
    · rw [removeFences_step7 cs h7]
      have h7l := startsWith_length_le _ _ h7
      exact ih _ (by simp [List.length_drop]; omega)
    · have h7f : startsWith cs fenceJson = false := by
        revert h7; cases startsWith cs fenceJson <;> simp
      by_cases h3 : startsWith cs fence = true
      · rw [removeFences_step3 cs h7f h3]
        have h3l := startsWith_length_le _ _ h3
        exact ih _ (by simp [List.length_drop]; omega)
      · have h3f : startsWith cs fence = false := by
          revert h3; cases startsWith cs fence <;> simp
        cases cs with
        | nil => decide
        | cons c t =>
          rw [removeFences_cons c t h7f h3f]
          have hRest := ih t (by simp at hlen; omega)
          have hHead : startsWith (c :: removeFences t) fence = false := by
            by_cases hc : (c == Char.ofNat 96) = true
            · have h2 : startsWith t [Char.ofNat 96, Char.ofNat 96] = false := by
                rw [fence_eq] at h3f
                simp only [startsWith, hc, Bool.true_and] at h3f
                exact h3f
              rw [fence_eq]
              simp only [startsWith, hc, Bool.true_and]
              exact removeFences_head2 t h2
            · have hcf : (c == Char.ofNat 96) = false := by
                revert hc; cases (c == Char.ofNat 96) <;> simp
              rw [fence_eq]
              simp [startsWith, hcf]
          simp only [strContains, hHead, hRest, Bool.or_self]

theorem removeFences_result_no_fence (cs : List Char) :
    strContains (removeFences cs) fence = false :=
  removeFences_result_no_fence_aux cs.length cs le_rfl

theorem removeFences_result_no_fenceJson (cs : List Char) :
    strContains (removeFences cs) fenceJson = false := by
  cases hj : strContains (removeFences cs) fenceJson
  · rfl
  · have h1 : strContains (removeFences cs) (fence ++ json4) = true := by
      rw [← fenceJson_eq_fence_append]; exact hj
    have h2 := strContains_pfx _ fence json4 h1
    rw [removeFences_result_no_fence cs] at h2
    cases h2

theorem skipWs_cons_of_not (c : Char) (t : List Char) (h : isJsonWs c = false) :
    skipWs (c :: t) = c :: t := by
  simp [skipWs, List.dropWhile_cons, h]

theorem parseStringBody_plain :
    ∀ (m : List Char) (rest : List Char) (fuel : Nat),
      (∀ c ∈ m, jsonPlain c = true) → m.length + 1 ≤ fuel →
      parseStringBody fuel (m ++ '"' :: rest) = some (m, rest) := by
  intro m
  induction m with
  | nil =>
    intro rest fuel _ hfuel
    obtain ⟨f, rfl⟩ : ∃ f, fuel = f + 1 := ⟨fuel - 1, by omega⟩
    show parseStringBody (f + 1) ('"' :: rest) = some ([], rest)
    simp [parseStringBody]
  | cons c m' ih =>
    intro rest fuel hm hfuel
    obtain ⟨f, rfl⟩ : ∃ f, fuel = f + 1 := ⟨fuel - 1, by omega⟩
    obtain ⟨h1, h2, h3⟩ := jsonPlain_elim c (hm c (by simp))
    show parseStringBody (f + 1) (c :: (m' ++ '"' :: rest)) = some (c :: m', rest)
    simp only [parseStringBody]
    rw [if_neg h1, if_neg h2, if_neg h3,
      ih rest f (fun d hd => hm d (by simp [hd])) (by simp at hfuel; omega)]
    rfl

theorem skipWs_quote (t : List Char) : skipWs ('"' :: t) = '"' :: t :=
  skipWs_cons_of_not '"' t rfl

theorem skipWs_lbracket (t : List Char) : skipWs ('[' :: t) = '[' :: t :=
  skipWs_cons_of_not '[' t rfl

theorem skipWs_rbracket (t : List Char) : skipWs (']' :: t) = ']' :: t :=
  skipWs_cons_of_not ']' t rfl

theorem parseValue_string_step (fuel : Nat) (m rest : List Char)
    (hm : ∀ c ∈ m, jsonPlain c = true) :
    parseValue (fuel + 1) ('"' :: (m ++ '"' :: rest)) = some (Json.str (String.mk m), rest) := by
  have hsb : parseStringBody ((m ++ '"' :: rest).length + 1) (m ++ '"' :: rest) =
      some (m, rest) := parseStringBody_plain m rest _ hm (by simp)
  simp only [List.cons_append, parseValue, skipWs_quote, hsb, if_true]

theorem parseElems_single_step (fuel : Nat) (m : List Char)
    (hm : ∀ c ∈ m, jsonPlain c = true) :
    parseElems (fuel + 1 + 1) ('"' :: (m ++ '"' :: ']' :: [])) =
      some ([Json.str (String.mk m)], []) := by
  simp only [parseElems, parseValue_string_step fuel m (']' :: []) hm, skipWs_rbracket,
    show ¬(']' = ',') from by decide, if_false, eq_self_iff_true, if_true]

theorem JSONparseL_singleton_string (m : List Char) (hm : ∀ c ∈ m, jsonPlain c = true) :
    JSONparseL ('[' :: '"' :: (m ++ '"' :: ']' :: [])) =
      some (Json.arr [Json.str (String.mk m)]) := by
  have hlen : ('[' :: '"' :: (m ++ '"' :: ']' :: [])).length = m.length + 4 := by simp
  have hV : parseValue (2 * m.length + 8 + 1 + 1) ('[' :: '"' :: (m ++ '"' :: ']' :: [])) =
      some (Json.arr [Json.str (String.mk m)], []) := by
    simp only [parseValue, skipWs_lbracket, skipWs_quote,
      show ¬(('[' : Char) = '"') from by decide, if_false,
      show ¬(('"' : Char) = ']') from by decide,
      eq_self_iff_true, if_true, parseElems_single_step (2 * m.length + 7) m hm]
  unfold JSONparseL
  rw [hlen, show 2 * (m.length + 4) + 2 = 2 * m.length + 8 + 1 + 1 from by ring, hV]
  rfl

theorem removeFences_fencedText (a b : List Char)
    (ha : ∀ c ∈ a, plainChar c = true) (hb : ∀ c ∈ b, plainChar c = true)
    (hbj : startsWith b json4 = false) :
    removeFences ('[' :: '"' :: ((a ++ fence ++ b) ++ '"' :: ']' :: [])) =
      '[' :: '"' :: ((a ++ b) ++ '"' :: ']' :: []) := by
  have hshape : ('[' :: '"' :: ((a ++ fence ++ b) ++ '"' :: ']' :: []) : List Char) =
      ('[' :: '"' :: a) ++ (fence ++ (b ++ '"' :: ']' :: [])) := by
    simp [List.append_assoc]
  have hu : ∀ c ∈ ('[' :: '"' :: a : List Char), (c == Char.ofNat 96) = false := by
    intro c hc
    rcases List.mem_cons.mp hc with rfl | hc
    · decide
    · rcases List.mem_cons.mp hc with rfl | hc
      · decide
      · exact (plainChar_elim c (ha c hc)).2
  have hv : startsWith (b ++ '"' :: ']' :: []) json4 = false := by
    cases hq : startsWith (b ++ '"' :: ']' :: []) json4
    · rfl
    · exact absurd (sw_json_of_append_qb b hq) (by rw [hbj]; simp)
  rw [hshape, removeFences_append_no_btick ('[' :: '"' :: a) _ hu,
    removeFences_fence_append _ hv,
    removeFences_append_no_btick b _ (fun c hc => (plainChar_elim c (hb c hc)).2),
    show removeFences ('"' :: ']' :: []) = '"' :: ']' :: [] from rfl]
  simp [List.append_assoc]

theorem jsTrim_arrayText (mid : List Char) :
    jsTrim ('[' :: '"' :: (mid ++ '"' :: ']' :: [])) =
      '[' :: '"' :: (mid ++ '"' :: ']' :: []) := by
  have h := jsTrim_of_ends '[' ']' ('"' :: mid ++ ['"']) rfl rfl
  have hsh : (('[' :: ('"' :: mid ++ ['"'])) ++ ([']'] : List Char)) =
      '[' :: '"' :: (mid ++ '"' :: ']' :: []) := by simp
  rw [hsh] at h
  exact h

/-- C9: the sanitization step deletes every occurrence of the fence
markers anywhere in the response text — no occurrence of the bare or
json-tagged fence marker survives in the sanitizer's output, for any
text — and then trims; consequently, for every otherwise-valid JSON
input of the family `["<a>\x60\x60\x60<b>"]` carrying a fence inside its
string value (string bodies free of quotes, backslashes, control
characters and backticks, the right part not beginning with "json"),
the parsed result of the sanitized text differs from what parsing the
original text gives. -/
theorem c9_global_fence_deletion (cs a b : List Char)
    (ha : ∀ c ∈ a, plainChar c = true) (hb : ∀ c ∈ b, plainChar c = true)
    (hbj : startsWith b json4 = false) :
    strContains (removeFences cs) fence = false ∧
    strContains (removeFences cs) fenceJson = false ∧
    JSONparseL (fencedArrayText a b).toList =
      some (Json.arr [Json.str (String.mk (a ++ fence ++ b))]) ∧
    cleanText (fencedArrayText a b) = (plainArrayText a b).toList ∧
    JSONparseL (cleanText (fencedArrayText a b)) =
      some (Json.arr [Json.str (String.mk (a ++ b))]) ∧
    JSONparseL (cleanText (fencedArrayText a b)) ≠
      JSONparseL (fencedArrayText a b).toList := by
  have hmfence : ∀ c ∈ a ++ fence ++ b, jsonPlain c = true := by
    intro c hc
    rcases List.mem_append.mp hc with hc | hc
    · rcases List.mem_append.mp hc with hc | hc
      · exact (plainChar_elim c (ha c hc)).1
      · simp only [fence_eq, List.mem_cons, List.not_mem_nil, or_false] at hc
        rcases hc with rfl | rfl | rfl <;> decide
    · exact (plainChar_elim c (hb c hc)).1
  have hparse1 : JSONparseL (fencedArrayText a b).toList =
      some (Json.arr [Json.str (String.mk (a ++ fence ++ b))]) := by
    show JSONparseL ('[' :: '"' :: ((a ++ fence ++ b) ++ '"' :: ']' :: [])) = _
    exact JSONparseL_singleton_string (a ++ fence ++ b) hmfence
  have hclean : cleanText (fencedArrayText a b) = (plainArrayText a b).toList := by
    show jsTrim (removeFences ('[' :: '"' :: ((a ++ fence ++ b) ++ '"' :: ']' :: []))) =
      ('[' :: '"' :: ((a ++ b) ++ '"' :: ']' :: []))
    rw [removeFences_fencedText a b ha hb hbj, jsTrim_arrayText]
  have hparse2 : JSONparseL (cleanText (fencedArrayText a b)) =
      some (Json.arr [Json.str (String.mk (a ++ b))]) := by
    rw [hclean]
    show JSONparseL ('[' :: '"' :: ((a ++ b) ++ '"' :: ']' :: [])) = _
    refine JSONparseL_singleton_string (a ++ b) fun c hc => ?_
    rcases List.mem_append.mp hc with h | h
    · exact (plainChar_elim c (ha c h)).1
    · exact (plainChar_elim c (hb c h)).1
  have hne : JSONparseL (cleanText (fencedArrayText a b)) ≠
      JSONparseL (fencedArrayText a b).toList := by
    rw [hparse1, hparse2]
    intro h
    simp only [Option.some.injEq, Json.arr.injEq, List.cons.injEq, Json.str.injEq,
      and_true] at h
    have hlen : (a ++ b).length = (a ++ fence ++ b).length :=
      congrArg List.length (congrArg String.data h)
    simp only [List.length_append, fence_eq, List.length_cons, List.length_nil] at hlen
    omega
  exact ⟨removeFences_result_no_fence cs, removeFences_result_no_fenceJson cs,
    hparse1, hclean, hparse2, hne⟩

/-- Witness for C9 at the string bodies "a" and "b": sanitizing the text
`["a\x60\x60\x60b"]` changes its parse result. -/
theorem c9_global_fence_deletion_witness :
    (∀ c ∈ (['a'] : List Char), plainChar c = true) ∧
    (∀ c ∈ (['b'] : List Char), plainChar c = true) ∧
    startsWith ['b'] json4 = false ∧
    cleanText (fencedArrayText ['a'] ['b']) = (plainArrayText ['a'] ['b']).toList ∧
    JSONparseL (cleanText (fencedArrayText ['a'] ['b'])) ≠
      JSONparseL (fencedArrayText ['a'] ['b']).toList :=
  ⟨by decide, by decide, by decide,
    (c9_global_fence_deletion [] ['a'] ['b'] (by decide) (by decide) (by decide)).2.2.2.1,
    (c9_global_fence_deletion [] ['a'] ['b'] (by decide) (by decide) (by decide)).2.2.2.2.2⟩
